import Mathlib

/-!
Verification development for the min/max-span slashing detector of this
repository (package `beacon-chain/slasher`) and for the Electra execution
request decoding (`proto/engine/v1`).

The slasher package under `src/` ships only its package documentation
(`doc.go`), which fixes the parameters, the min/max-span semantics, the
concrete attesting histories of validators 257 and 258, the surround-check
examples, and the on-disk chunk layout.  The executable Go code itself is not
part of `src/`, so every operation below is modelled from the specification
text and checked against the concrete tables and examples of `doc.go`.
-/

/-- Modelled from the spec: `H`, history length in epochs per validator
(canonical 4096). -/
def H : Nat := 4096

/-- Modelled from the spec: `C`, epochs per chunk (canonical 16). -/
def C : Nat := 16

/-- Modelled from the spec: `K`, validators per chunk (canonical 256). -/
def K : Nat := 256

/-- Modelled from the spec: `SPAN_MAX`, the encoded infinity sentinel for
min-span cells; `doc.go` sets it to the max `uint16` value 65535. -/
def SPAN_MAX : Nat := 65535

/-- Modelled from the spec: an attestation record
`(validator, source, target, signing_root)`. -/
structure Att where
  validator : Nat
  source : Nat
  target : Nat
  root : Nat
deriving DecidableEq

/-- A 2D span table indexed by `(validator, epoch)`. -/
def Spans : Type := Nat → Nat → Nat

/-- Modelled from the spec: the blank min-span table, every cell at the
identity value `SPAN_MAX`. -/
def blankMin : Spans := fun _ _ => SPAN_MAX

/-- Modelled from the spec: the blank max-span table, every cell at the
identity value `0`. -/
def blankMax : Spans := fun _ _ => 0

/-- Condition under which the min-span update for attestation `a` writes the
cell `(v, e)`: the spec walks every epoch `e` in
`[max(0, e_now − H + 1), s − 1]` for the row of `a`'s validator.  In `Nat`,
`eNow + 1 - H` is exactly `max(0, e_now − H + 1)`. -/
def minCond (eNow v e : Nat) (a : Att) : Bool :=
  a.validator == v && decide (eNow + 1 - H ≤ e) && decide (e < a.source)

/-- Modelled from the spec: the min-span update for one attestation,
`min[v, e] ← min(min[v, e], t − e)` on every covered cell. -/
def minUpdateAtt (eNow : Nat) (m : Spans) (a : Att) : Spans :=
  fun v e => if minCond eNow v e a then min (m v e) (a.target - e) else m v e

/-- Condition under which the max-span update for attestation `a` writes the
cell `(v, e)`: every epoch `e` in `[s + 1, t − 1]` for the row of `a`'s
validator. -/
def maxCond (v e : Nat) (a : Att) : Bool :=
  a.validator == v && decide (a.source < e) && decide (e < a.target)

/-- Modelled from the spec: the max-span update for one attestation,
`max[v, e] ← max(max[v, e], t − e)` on every covered cell. -/
def maxUpdateAtt (m : Spans) (a : Att) : Spans :=
  fun v e => if maxCond v e a then max (m v e) (a.target - e) else m v e

/-- Min-span update for a whole batch, one attestation at a time. -/
def minUpdateList (eNow : Nat) (m : Spans) (l : List Att) : Spans :=
  l.foldl (minUpdateAtt eNow) m

/-- Max-span update for a whole batch, one attestation at a time. -/
def maxUpdateList (m : Spans) (l : List Att) : Spans :=
  l.foldl maxUpdateAtt m

/-- The attestation record index, `(validator, target) → (source, root)`. -/
def RecIndex : Type := Nat → Nat → Option (Nat × Nat)

/-- The empty record index. -/
def blankRecs : RecIndex := fun _ _ => none

/-- Modelled from the spec: record insertion is first-writer-wins on the key
`(validator, target)`; a conflicting later write does not replace the stored
record. -/
def recInsert (r : RecIndex) (a : Att) : RecIndex :=
  fun v t =>
    if v = a.validator ∧ t = a.target ∧ r a.validator a.target = none then
      some (a.source, a.root)
    else r v t

/-- Record insertion for a whole batch. -/
def recInsertList (r : RecIndex) (l : List Att) : RecIndex :=
  l.foldl recInsert r

/-- The mutable state of the span store: min spans, max spans and the
attestation record index. -/
@[ext]
structure SState where
  minS : Spans
  maxS : Spans
  recs : RecIndex

/-- The blank state: both span tables at their identity values, no records. -/
def blankState : SState := ⟨blankMin, blankMax, blankRecs⟩

/-- Modelled from the spec: the span-update pass for a single attestation —
min-span walk, max-span walk, and record insertion. -/
def applyAtt (eNow : Nat) (st : SState) (a : Att) : SState :=
  { minS := minUpdateAtt eNow st.minS a
    maxS := maxUpdateAtt st.maxS a
    recs := recInsert st.recs a }

/-- Modelled from the spec: the span-update pass for a batch of attestations
at current epoch `eNow`. -/
def applyBatch (eNow : Nat) (st : SState) (l : List Att) : SState :=
  l.foldl (applyAtt eNow) st

/-- The candidate values `target − e` of the recorded attestations of `v`
whose source is strictly greater than `e` (the reduction the spec assigns to
a min-span cell). -/
def minCands (l : List Att) (v e : Nat) : List Nat :=
  (l.filter (fun a => a.validator == v && decide (e < a.source))).map
    (fun a => a.target - e)

/-- The candidate values `target − e` of the recorded attestations of `v`
whose source is strictly less than `e` (the reduction the spec assigns to a
max-span cell). -/
def maxCands (l : List Att) (v e : Nat) : List Nat :=
  (l.filter (fun a => a.validator == v && decide (a.source < e))).map
    (fun a => a.target - e)

/-- The candidate values whose update condition actually fires for the cell
`(v, e)` during the min-span walk (includes the window clip). -/
def minCandsFull (eNow : Nat) (l : List Att) (v e : Nat) : List Nat :=
  (l.filter (minCond eNow v e)).map (fun a => a.target - e)

/-- Modelled from the spec: the surround-by-older check of the detector —
the incoming `(v, s, t)` surrounds a recorded attestation iff
`min[v, s] < t − s`. -/
def surroundCheck (m : Spans) (v s t : Nat) : Bool :=
  decide (m v s < t - s)

/-- Modelled from the spec: the surrounded-by-older check of the detector —
the incoming `(v, s, t)` is surrounded by a recorded attestation iff
`max[v, s] > t − s`. -/
def surroundedCheck (m : Spans) (v s t : Nat) : Bool :=
  decide (t - s < m v s)

/-- Modelled from the spec: evidence reconstruction for the surround-by-older
case — scan record entries of `v` with target in `(s, t)` whose source is
greater than `s`. -/
def findSurroundedPartner (l : List Att) (v s t : Nat) : Option Att :=
  l.find? (fun a =>
    a.validator == v && decide (s < a.target) && decide (a.target < t) &&
      decide (s < a.source))

/-- Modelled from the spec: evidence reconstruction for the
surrounded-by-older case — scan record entries of `v` that strictly surround
the incoming `(s, t)`. -/
def findSurroundingPartner (l : List Att) (v s t : Nat) : Option Att :=
  l.find? (fun a =>
    a.validator == v && decide (a.source < s) && decide (t < a.target))

/-- Serialize a list of cells as a flat little-endian sequence of 2-byte
values, low byte first. -/
def encodeCells : List Nat → List Nat
  | [] => []
  | x :: rest => x % 256 :: x / 256 :: encodeCells rest

/-- Modelled from the spec: the chunk codec's `encode` — the raw little-endian
sequence of the chunk's cells.  Snappy compression wraps the byte block; it is
an external lossless library, modelled as the identity on the bytes. -/
def encodeChunk (c : List Nat) : List Nat := encodeCells c

/-- Rebuild cells from a flat little-endian byte sequence. -/
def decodeCells : List Nat → List Nat
  | b0 :: b1 :: rest => (b0 + 256 * b1) :: decodeCells rest
  | _ => []

/-- Modelled from the spec: the chunk codec's `decode`, which validates the
exact decompressed length `K·C·cell_bytes` and unpacks the cells. -/
def decodeChunk (b : List Nat) : Option (List Nat) :=
  if b.length = K * C * 2 then some (decodeCells b) else none

/-- A query of the chunked span store for epoch `e` reads the circular-buffer
slot `e mod H`: chunk `⌊e/C⌋ mod (H/C)`, cell `e mod C` inside it. -/
def queryCell (st : Spans) (v e : Nat) : Nat := st v (e % H)

/-- Modelled from the spec: the pruner's work at one epoch tick — once the
current epoch has reached `H`, the epoch `tick − H` just left the window, and
its whole epoch-chunk is wiped back to the kind's identity value `idv`. -/
def wipeTick (idv tick : Nat) (st : Spans) : Spans :=
  if H ≤ tick then
    fun v j => if j / C = ((tick - H) / C) % (H / C) then idv else st v j
  else st

/-- Run the pruner at every epoch tick `1, …, eNow`. -/
def pruneUpTo (idv : Nat) (st : Spans) (eNow : Nat) : Spans :=
  (List.range eNow).foldl (fun s k => wipeTick idv (k + 1) s) st

/-- The detector's classification of one incoming attestation.  All outcomes,
including `outOfWindow`, are normal results of the total function `detect`;
none is an error. -/
inductive Outcome where
  | outOfWindow
  | doubleVote
  | surround
  | surrounded
  | recorded
deriving DecidableEq

/-- Modelled from the spec: detector steps 3–4 and the commit — the surround
checks against the span cells at the incoming source; a slashable attestation
is not committed, a clean one goes through the span-update pass. -/
def detectSpans (eNow : Nat) (st : SState) (a : Att) : SState × Outcome :=
  if surroundCheck st.minS a.validator a.source a.target then
    (st, Outcome.surround)
  else if surroundedCheck st.maxS a.validator a.source a.target then
    (st, Outcome.surrounded)
  else (applyAtt eNow st a, Outcome.recorded)

/-- Modelled from the spec: the detector for one incoming attestation — the
validity gate (reject when `e_now − t ≥ H` or `t > e_now + tol`), the
double-vote probe of the record index, then the surround checks. -/
def detect (eNow tol : Nat) (st : SState) (a : Att) : SState × Outcome :=
  if H ≤ eNow - a.target ∨ eNow + tol < a.target then (st, Outcome.outOfWindow)
  else
    match st.recs a.validator a.target with
    | some (_, r) =>
      if r ≠ a.root then (st, Outcome.doubleVote) else detectSpans eNow st a
    | none => detectSpans eNow st a

/-- The attesting history of validator 257 as drawn in `doc.go`. -/
def records257 : List Att :=
  [⟨257, 8193, 8195, 0⟩, ⟨257, 8196, 8197, 0⟩, ⟨257, 8197, 8200, 0⟩,
   ⟨257, 8204, 8205, 0⟩, ⟨257, 8205, 8206, 0⟩, ⟨257, 8206, 8207, 0⟩,
   ⟨257, 8207, 8209, 0⟩, ⟨257, 8209, 8210, 0⟩, ⟨257, 8210, 8211, 0⟩,
   ⟨257, 8211, 8212, 0⟩, ⟨257, 8212, 8213, 0⟩, ⟨257, 8213, 8214, 0⟩,
   ⟨257, 8219, 8220, 0⟩, ⟨257, 8221, 8222, 0⟩]

/-- Chop a byte list into consecutive items of `size` bytes each. -/
def toChunks (size : Nat) : List Nat → List (List Nat)
  | [] => []
  | x :: xs =>
    if h : 0 < size then
      (x :: xs).take size :: toChunks size ((x :: xs).drop size)
    else []
termination_by l => l.length
decreasing_by
  simp only [List.length_drop, List.length_cons]
  exact Nat.sub_lt (Nat.succ_pos _) h

/-- Modelled from the spec: `UnmarshalItems` slices an SSZ byte sequence into
fixed-size items, failing unless the length is an exact multiple of the item
size. -/
def unmarshalItems (b : List Nat) (size : Nat) : Option (List (List Nat)) :=
  if 0 < size ∧ b.length % size = 0 then some (toChunks size b) else none

/-- The decoded execution requests of an `ExecutionBundleElectra`, grouped by
request type. -/
structure ExecutionRequestsM where
  deposits : List (List Nat)
  withdrawals : List (List Nat)
  consolidations : List (List Nat)
deriving DecidableEq

/-- The EIP-7685 deposit request type byte. -/
def depositRequestType : Nat := 0

/-- The EIP-7685 withdrawal request type byte. -/
def withdrawalRequestType : Nat := 1

/-- The EIP-7685 consolidation request type byte. -/
def consolidationRequestType : Nat := 2

/-- SSZ size in bytes of one deposit request (48 + 32 + 8 + 96 + 8). -/
def depositRequestSize : Nat := 192

/-- SSZ size in bytes of one withdrawal request (20 + 48 + 8). -/
def withdrawalRequestSize : Nat := 76

/-- SSZ size in bytes of one consolidation request (20 + 48 + 48). -/
def consolidationRequestSize : Nat := 116

/-- The error returned when the leading request-type bytes are not strictly
ascending. -/
def requestTypeOrderError : String :=
  "invalid execution request type order" ++
    " or duplicate requests, requests should be in sorted order and unique"

/-- Modelled from the spec: the per-request loop of
`GetDecodedExecutionRequests` — split off the leading request-type byte,
reject a type byte that does not strictly increase over the previous one,
then decode the payload by type.  The Go function is absent from `src/`; this
is modelled from the behavior `TestGetDecodedExecutionRequests` requires. -/
def decodeRequestsLoop (prev : Option Nat) (acc : ExecutionRequestsM) :
    List (List Nat) → Except String ExecutionRequestsM
  | [] => Except.ok acc
  | r :: rest =>
    match r with
    | [] => Except.error "invalid execution request, length less than 1"
    | t :: payload =>
      if (match prev with | none => false | some p => decide (t ≤ p)) then
        Except.error requestTypeOrderError
      else if t = depositRequestType then
        match unmarshalItems payload depositRequestSize with
        | none => Except.error "invalid deposit requests SSZ size"
        | some items =>
          decodeRequestsLoop (some t)
            { acc with deposits := acc.deposits ++ items } rest
      else if t = withdrawalRequestType then
        match unmarshalItems payload withdrawalRequestSize with
        | none => Except.error "invalid withdrawal requests SSZ size"
        | some items =>
          decodeRequestsLoop (some t)
            { acc with withdrawals := acc.withdrawals ++ items } rest
      else if t = consolidationRequestType then
        match unmarshalItems payload consolidationRequestSize with
        | none => Except.error "invalid consolidation requests SSZ size"
        | some items =>
          decodeRequestsLoop (some t)
            { acc with consolidations := acc.consolidations ++ items } rest
      else Except.error "unsupported execution request type"

/-- Modelled from the spec: `GetDecodedExecutionRequests` over the
`ExecutionRequests` list of an `ExecutionBundleElectra`. -/
def getDecodedExecutionRequests (reqs : List (List Nat)) :
    Except String ExecutionRequestsM :=
  decodeRequestsLoop none ⟨[], [], []⟩ reqs

/-- The leading request-type byte of one encoded request. -/
def reqTypeByte (r : List Nat) : Nat := r.headD 0

/-- A well-formed encoded request: a known leading type byte followed by a
payload whose length is an exact multiple of that type's SSZ item size. -/
def wfReq (r : List Nat) : Bool :=
  match r with
  | [] => false
  | t :: p =>
    (t == depositRequestType && p.length % depositRequestSize == 0) ||
    (t == withdrawalRequestType && p.length % withdrawalRequestSize == 0) ||
    (t == consolidationRequestType && p.length % consolidationRequestSize == 0)

/-- The spec's reduction property of one min-span cell: the cell is the
minimum of `target − e` over the records of `v` with `source > e`, and the
sentinel `SPAN_MAX` when no such record exists. -/
def minCellCorrect (m : Spans) (l : List Att) (v e : Nat) : Prop :=
  (minCands l v e = [] → m v e = SPAN_MAX) ∧
  (∀ x ∈ minCands l v e, m v e ≤ x) ∧
  (minCands l v e ≠ [] → m v e ∈ minCands l v e)

/-- The spec's reduction property of one max-span cell: the cell is the
maximum of `target − e` over the records of `v` with `source < e`, and `0`
when no such record exists. -/
def maxCellCorrect (m : Spans) (l : List Att) (v e : Nat) : Prop :=
  (maxCands l v e = [] → m v e = 0) ∧
  (∀ x ∈ maxCands l v e, x ≤ m v e) ∧
  (maxCands l v e ≠ [] → m v e ∈ maxCands l v e)

/-- Strict ascent of the request-type bytes `ts`, continued from the type of
the previously decoded request (`none` before the first request). -/
def prevChain (prev : Option Nat) (ts : List Nat) : Prop :=
  match prev with
  | none => List.Chain' (fun x y => x < y) ts
  | some p => List.Chain' (fun x y => x < y) (p :: ts)

theorem foldl_min_le_init (l : List Nat) (init : Nat) : l.foldl min init ≤ init := by
  induction l generalizing init with
  | nil => exact le_refl _
  | cons a l ih =>
    exact le_trans (ih (min init a)) (min_le_left _ _)

theorem foldl_min_le_mem (l : List Nat) (init x : Nat) (hx : x ∈ l) :
    l.foldl min init ≤ x := by
  induction l generalizing init with
  | nil => cases hx
  | cons a l ih =>
    rcases List.mem_cons.mp hx with rfl | hx2
    · exact le_trans (foldl_min_le_init l (min init x)) (min_le_right _ _)
    · exact ih (min init a) hx2

theorem foldl_min_choice (l : List Nat) (init : Nat) :
    l.foldl min init = init ∨ l.foldl min init ∈ l := by
  induction l generalizing init with
  | nil => exact Or.inl rfl
  | cons a l ih =>
    rcases ih (min init a) with h | h
    · rcases min_choice init a with h2 | h2
      · exact Or.inl (by rw [List.foldl_cons, h, h2])
      · exact Or.inr (by rw [List.foldl_cons, h, h2]; exact List.mem_cons_self _ _)
    · exact Or.inr (List.mem_cons_of_mem _ h)

theorem foldl_max_init_le (l : List Nat) (init : Nat) : init ≤ l.foldl max init := by
  induction l generalizing init with
  | nil => exact le_refl _
  | cons a l ih =>
    exact le_trans (le_max_left _ _) (ih (max init a))

theorem foldl_max_mem_le (l : List Nat) (init x : Nat) (hx : x ∈ l) :
    x ≤ l.foldl max init := by
  induction l generalizing init with
  | nil => cases hx
  | cons a l ih =>
    rcases List.mem_cons.mp hx with rfl | hx2
    · exact le_trans (le_max_right _ _) (foldl_max_init_le l (max init x))
    · exact ih (max init a) hx2

theorem foldl_max_choice (l : List Nat) (init : Nat) :
    l.foldl max init = init ∨ l.foldl max init ∈ l := by
  induction l generalizing init with
  | nil => exact Or.inl rfl
  | cons a l ih =>
    rcases ih (max init a) with h | h
    · rcases max_choice init a with h2 | h2
      · exact Or.inl (by rw [List.foldl_cons, h, h2])
      · exact Or.inr (by rw [List.foldl_cons, h, h2]; exact List.mem_cons_self _ _)
    · exact Or.inr (List.mem_cons_of_mem _ h)

theorem minUpdateList_cell (eNow v e : Nat) (l : List Att) (m : Spans) :
    minUpdateList eNow m l v e = (minCandsFull eNow l v e).foldl min (m v e) := by
  induction l generalizing m with
  | nil => rfl
  | cons a l ih =>
    have hstep : minUpdateList eNow m (a :: l) v e
        = minUpdateList eNow (minUpdateAtt eNow m a) l v e := rfl
    rw [hstep, ih (minUpdateAtt eNow m a)]
    simp only [minCandsFull, List.filter_cons]
    cases hc : minCond eNow v e a
    · have : minUpdateAtt eNow m a v e = m v e := by simp [minUpdateAtt, hc]
      simp [this]
    · have : minUpdateAtt eNow m a v e = min (m v e) (a.target - e) := by
        simp [minUpdateAtt, hc]
      simp [this, minCandsFull]

theorem maxUpdateList_cell (v e : Nat) (l : List Att) (m : Spans) :
    maxUpdateList m l v e = (maxCands l v e).foldl max (m v e) := by
  induction l generalizing m with
  | nil => rfl
  | cons a l ih =>
    have hstep : maxUpdateList m (a :: l) v e
        = maxUpdateList (maxUpdateAtt m a) l v e := rfl
    rw [hstep, ih (maxUpdateAtt m a)]
    simp only [maxCands, List.filter_cons]
    cases hb : (a.validator == v && decide (a.source < e))
    · have hcond : maxCond v e a = false := by
        simp only [maxCond]
        rw [hb]
        rfl
      have : maxUpdateAtt m a v e = m v e := by simp [maxUpdateAtt, hcond]
      simp [this]
    · cases hd : decide (e < a.target)
      · have hcond : maxCond v e a = false := by
          simp only [maxCond]
          rw [hb, hd]
          rfl
        have h0 : a.target - e = 0 := by
          have := of_decide_eq_false hd
          omega
        have h1 : maxUpdateAtt m a v e = m v e := by simp [maxUpdateAtt, hcond]
        simp [h1, maxCands, h0]
      · have hcond : maxCond v e a = true := by
          simp only [maxCond]
          rw [hb, hd]
          rfl
        have : maxUpdateAtt m a v e = max (m v e) (a.target - e) := by
          simp [maxUpdateAtt, hcond]
        simp [this, maxCands]

theorem minCandsFull_eq (eNow : Nat) (l : List Att) (v e : Nat)
    (hwin : eNow < e + H) : minCandsFull eNow l v e = minCands l v e := by
  unfold minCandsFull minCands
  congr 1
  apply List.filter_congr
  intro a _
  have hclip : eNow + 1 - H ≤ e := by omega
  simp only [minCond]
  rw [show decide (eNow + 1 - H ≤ e) = true from decide_eq_true hclip]
  rw [Bool.and_true]

theorem applyBatch_minS (eNow : Nat) (st : SState) (l : List Att) :
    (applyBatch eNow st l).minS = minUpdateList eNow st.minS l := by
  induction l generalizing st with
  | nil => rfl
  | cons a l ih =>
    have h1 : applyBatch eNow st (a :: l) = applyBatch eNow (applyAtt eNow st a) l := rfl
    rw [h1, ih (applyAtt eNow st a)]
    rfl

theorem applyBatch_maxS (eNow : Nat) (st : SState) (l : List Att) :
    (applyBatch eNow st l).maxS = maxUpdateList st.maxS l := by
  induction l generalizing st with
  | nil => rfl
  | cons a l ih =>
    have h1 : applyBatch eNow st (a :: l) = applyBatch eNow (applyAtt eNow st a) l := rfl
    rw [h1, ih (applyAtt eNow st a)]
    rfl

theorem applyBatch_recs (eNow : Nat) (st : SState) (l : List Att) :
    (applyBatch eNow st l).recs = recInsertList st.recs l := by
  induction l generalizing st with
  | nil => rfl
  | cons a l ih =>
    have h1 : applyBatch eNow st (a :: l) = applyBatch eNow (applyAtt eNow st a) l := rfl
    rw [h1, ih (applyAtt eNow st a)]
    rfl

theorem minUpdateAtt_idem (eNow : Nat) (m : Spans) (a : Att) :
    minUpdateAtt eNow (minUpdateAtt eNow m a) a = minUpdateAtt eNow m a := by
  funext v e
  simp only [minUpdateAtt]
  cases hc : minCond eNow v e a
  · simp
  · simp [min_assoc]

theorem minUpdateAtt_comm (eNow : Nat) (m : Spans) (a b : Att) :
    minUpdateAtt eNow (minUpdateAtt eNow m a) b
      = minUpdateAtt eNow (minUpdateAtt eNow m b) a := by
  funext v e
  simp only [minUpdateAtt]
  cases hca : minCond eNow v e a <;> cases hcb : minCond eNow v e b <;>
    simp [min_right_comm]

theorem minUpdateList_step (eNow : Nat) (m : Spans) (l : List Att) (a : Att) :
    minUpdateAtt eNow (minUpdateList eNow m l) a
      = minUpdateList eNow (minUpdateAtt eNow m a) l := by
  induction l generalizing m with
  | nil => rfl
  | cons b l ih =>
    calc minUpdateAtt eNow (minUpdateList eNow (minUpdateAtt eNow m b) l) a
        = minUpdateList eNow (minUpdateAtt eNow (minUpdateAtt eNow m b) a) l :=
          ih (minUpdateAtt eNow m b)
      _ = minUpdateList eNow (minUpdateAtt eNow (minUpdateAtt eNow m a) b) l := by
          rw [minUpdateAtt_comm]

theorem minUpdateList_idem (eNow : Nat) (m : Spans) (l : List Att) :
    minUpdateList eNow (minUpdateList eNow m l) l = minUpdateList eNow m l := by
  induction l generalizing m with
  | nil => rfl
  | cons a l ih =>
    have h1 : minUpdateAtt eNow (minUpdateList eNow (minUpdateAtt eNow m a) l) a
        = minUpdateList eNow (minUpdateAtt eNow m a) l := by
      rw [minUpdateList_step, minUpdateAtt_idem]
    show minUpdateList eNow
        (minUpdateAtt eNow (minUpdateList eNow (minUpdateAtt eNow m a) l) a) l
      = minUpdateList eNow (minUpdateAtt eNow m a) l
    rw [h1, ih (minUpdateAtt eNow m a)]

theorem maxUpdateAtt_idem (m : Spans) (a : Att) :
    maxUpdateAtt (maxUpdateAtt m a) a = maxUpdateAtt m a := by
  funext v e
  simp only [maxUpdateAtt]
  cases hc : maxCond v e a
  · simp
  · simp [max_assoc]

theorem maxUpdateAtt_comm (m : Spans) (a b : Att) :
    maxUpdateAtt (maxUpdateAtt m a) b = maxUpdateAtt (maxUpdateAtt m b) a := by
  funext v e
  simp only [maxUpdateAtt]
  cases hca : maxCond v e a <;> cases hcb : maxCond v e b <;>
    simp [max_assoc, max_comm, max_left_comm]

theorem maxUpdateList_step (m : Spans) (l : List Att) (a : Att) :
    maxUpdateAtt (maxUpdateList m l) a = maxUpdateList (maxUpdateAtt m a) l := by
  induction l generalizing m with
  | nil => rfl
  | cons b l ih =>
    calc maxUpdateAtt (maxUpdateList (maxUpdateAtt m b) l) a
        = maxUpdateList (maxUpdateAtt (maxUpdateAtt m b) a) l :=
          ih (maxUpdateAtt m b)
      _ = maxUpdateList (maxUpdateAtt (maxUpdateAtt m a) b) l := by
          rw [maxUpdateAtt_comm]

theorem maxUpdateList_idem (m : Spans) (l : List Att) :
    maxUpdateList (maxUpdateList m l) l = maxUpdateList m l := by
  induction l generalizing m with
  | nil => rfl
  | cons a l ih =>
    have h1 : maxUpdateAtt (maxUpdateList (maxUpdateAtt m a) l) a
        = maxUpdateList (maxUpdateAtt m a) l := by
      rw [maxUpdateList_step, maxUpdateAtt_idem]
    show maxUpdateList (maxUpdateAtt (maxUpdateList (maxUpdateAtt m a) l) a) l
      = maxUpdateList (maxUpdateAtt m a) l
    rw [h1, ih (maxUpdateAtt m a)]

theorem recInsert_pres (r : RecIndex) (a : Att) (v t : Nat)
    (h : (r v t).isSome = true) : ((recInsert r a) v t).isSome = true := by
  unfold recInsert
  by_cases hc : v = a.validator ∧ t = a.target ∧ r a.validator a.target = none
  · simp [hc]
  · simp only [if_neg hc]; exact h

theorem recInsert_key (r : RecIndex) (a : Att) :
    ((recInsert r a) a.validator a.target).isSome = true := by
  unfold recInsert
  cases h : r a.validator a.target with
  | none => simp [h]
  | some x => simp [h]

theorem recInsertList_pres (l : List Att) (r : RecIndex) (v t : Nat)
    (h : (r v t).isSome = true) : ((recInsertList r l) v t).isSome = true := by
  induction l generalizing r with
  | nil => exact h
  | cons a l ih => exact ih (recInsert r a) (recInsert_pres r a v t h)

theorem recInsertList_mem (l : List Att) (r : RecIndex) (a : Att) (ha : a ∈ l) :
    ((recInsertList r l) a.validator a.target).isSome = true := by
  induction l generalizing r with
  | nil => cases ha
  | cons b l ih =>
    rcases List.mem_cons.mp ha with rfl | ha2
    · exact recInsertList_pres l (recInsert r a) _ _ (recInsert_key r a)
    · exact ih (recInsert r b) ha2

theorem recInsert_noop (r : RecIndex) (a : Att)
    (h : (r a.validator a.target).isSome = true) : recInsert r a = r := by
  funext v t
  unfold recInsert
  have hne : ¬ r a.validator a.target = none := by
    intro hc; rw [hc] at h; cases h
  simp [hne]

theorem recInsertList_noop (l : List Att) (r : RecIndex)
    (h : ∀ a ∈ l, (r a.validator a.target).isSome = true) :
    recInsertList r l = r := by
  induction l generalizing r with
  | nil => rfl
  | cons a l ih =>
    have h1 : recInsert r a = r := recInsert_noop r a (h a (List.mem_cons_self _ _))
    have h2 : recInsertList r (a :: l) = recInsertList (recInsert r a) l := rfl
    rw [h2, h1]
    exact ih r (fun b hb => h b (List.mem_cons_of_mem _ hb))

theorem recInsertList_idem (r : RecIndex) (l : List Att) :
    recInsertList (recInsertList r l) l = recInsertList r l :=
  recInsertList_noop l (recInsertList r l)
    (fun a ha => recInsertList_mem l r a ha)

theorem wipeTick_pres (idv tick : Nat) (st : Spans) (v j : Nat)
    (h : st v j = idv) : wipeTick idv tick st v j = idv := by
  unfold wipeTick
  by_cases hH : H ≤ tick
  · simp only [if_pos hH]
    by_cases hc : j / C = ((tick - H) / C) % (H / C) <;> simp [hc, h]
  · simp only [if_neg hH]; exact h

theorem wipeTick_sets (idv e : Nat) (st : Spans) (v : Nat) :
    wipeTick idv (e + H) st v (e % H) = idv := by
  unfold wipeTick
  have hH : H ≤ e + H := Nat.le_add_left _ _
  simp only [if_pos hH]
  have hslot : (e % H) / C = ((e + H - H) / C) % (H / C) := by
    have h1 : e + H - H = e := by omega
    rw [h1]
    simp only [H, C]
    omega
  simp [hslot]

theorem pruneUpTo_tick (idv : Nat) (st : Spans) (n : Nat) :
    pruneUpTo idv st (n + 1) = wipeTick idv (n + 1) (pruneUpTo idv st n) := by
  unfold pruneUpTo
  rw [List.range_succ, List.foldl_append, List.foldl_cons, List.foldl_nil]

theorem pruneUpTo_dead (idv : Nat) (st : Spans) (eNow v e : Nat)
    (h : e + H ≤ eNow) : pruneUpTo idv st eNow v (e % H) = idv := by
  induction eNow with
  | zero =>
    exfalso
    have : 0 < H := by decide
    omega
  | succ n ih =>
    rw [pruneUpTo_tick]
    rcases Nat.lt_or_ge n (e + H) with hlt | hge
    · have hn : n + 1 = e + H := by omega
      rw [hn]
      exact wipeTick_sets idv e (pruneUpTo idv st n) v
    · exact wipeTick_pres idv (n + 1) (pruneUpTo idv st n) v (e % H) (ih hge)

theorem decodeCells_encodeCells (l : List Nat) :
    decodeCells (encodeCells l) = l := by
  induction l with
  | nil => rfl
  | cons x rest ih =>
    show (x % 256 + 256 * (x / 256)) :: decodeCells (encodeCells rest) = x :: rest
    rw [ih, Nat.mod_add_div]

theorem encodeCells_length (l : List Nat) :
    (encodeCells l).length = 2 * l.length := by
  induction l with
  | nil => rfl
  | cons x rest ih =>
    show (encodeCells rest).length + 1 + 1 = 2 * (rest.length + 1)
    omega

theorem encodeCells_bytes (l : List Nat) (k : Nat) :
    (encodeCells l)[2 * k]? = (l[k]?).map (fun x => x % 256) ∧
    (encodeCells l)[2 * k + 1]? = (l[k]?).map (fun x => x / 256) := by
  induction l generalizing k with
  | nil => simp [encodeCells]
  | cons x rest ih =>
    cases k with
    | zero => simp [encodeCells]
    | succ k =>
      have e1 : encodeCells (x :: rest) = x % 256 :: x / 256 :: encodeCells rest :=
        rfl
      have h2 : 2 * (k + 1) = 2 * k + 1 + 1 := by omega
      have h3 : 2 * (k + 1) + 1 = 2 * k + 1 + 1 + 1 := by omega
      constructor
      · rw [e1, h2, List.getElem?_cons_succ, List.getElem?_cons_succ,
          List.getElem?_cons_succ, (ih k).1]
      · rw [e1, h3, List.getElem?_cons_succ, List.getElem?_cons_succ,
          List.getElem?_cons_succ, (ih k).2]

theorem prevChain_shift (prev : Option Nat) (t : Nat) (ts : List Nat)
    (hnov : (match prev with | none => false | some p => decide (t ≤ p)) = false) :
    prevChain prev (t :: ts) ↔ prevChain (some t) ts := by
  cases prev with
  | none => exact Iff.rfl
  | some p =>
    have h2 : ¬ t ≤ p := of_decide_eq_false hnov
    have hp : p < t := by omega
    simp only [prevChain]
    rw [List.chain'_cons]
    simp [hp]

theorem loop_step (prev : Option Nat) (acc : ExecutionRequestsM) (t : Nat)
    (payload : List Nat) (rest : List (List Nat))
    (hwfr : wfReq (t :: payload) = true)
    (hnov : (match prev with | none => false | some p => decide (t ≤ p)) = false) :
    ∃ acc2, decodeRequestsLoop prev acc ((t :: payload) :: rest)
      = decodeRequestsLoop (some t) acc2 rest := by
  simp only [wfReq, Bool.or_eq_true, Bool.and_eq_true, beq_iff_eq,
    Nat.beq_eq_true_eq] at hwfr
  rcases hwfr with (⟨ht, hlen⟩ | ⟨ht, hlen⟩) | ⟨ht, hlen⟩ <;> subst ht
  · simp only [depositRequestType, depositRequestSize] at hnov hlen ⊢
    cases prev with
    | some p => simp at hnov
    | none =>
      refine ⟨{ acc with deposits := acc.deposits ++ toChunks 192 payload }, ?_⟩
      simp [decodeRequestsLoop, unmarshalItems, hlen,
        depositRequestType, depositRequestSize]
  · simp only [withdrawalRequestType, withdrawalRequestSize] at hnov hlen ⊢
    refine ⟨{ acc with withdrawals := acc.withdrawals ++ toChunks 76 payload }, ?_⟩
    simp [decodeRequestsLoop, hnov, unmarshalItems, hlen,
      depositRequestType, withdrawalRequestType, withdrawalRequestSize]
  · simp only [consolidationRequestType, consolidationRequestSize] at hnov hlen ⊢
    refine ⟨{ acc with consolidations := acc.consolidations ++ toChunks 116 payload }, ?_⟩
    simp [decodeRequestsLoop, hnov, unmarshalItems, hlen,
      depositRequestType, withdrawalRequestType, consolidationRequestType,
      consolidationRequestSize]

theorem loop_violation (p : Nat) (acc : ExecutionRequestsM) (t : Nat)
    (payload : List Nat) (rest : List (List Nat)) (hp : t ≤ p) :
    decodeRequestsLoop (some p) acc ((t :: payload) :: rest)
      = Except.error requestTypeOrderError := by
  simp [decodeRequestsLoop, hp]

theorem decodeRequestsLoop_spec (reqs : List (List Nat)) :
    ∀ (prev : Option Nat) (acc : ExecutionRequestsM),
      (∀ r ∈ reqs, wfReq r = true) →
      (prevChain prev (reqs.map reqTypeByte) →
        ∃ res, decodeRequestsLoop prev acc reqs = Except.ok res) ∧
      (¬ prevChain prev (reqs.map reqTypeByte) →
        decodeRequestsLoop prev acc reqs = Except.error requestTypeOrderError) := by
  induction reqs with
  | nil =>
    intro prev acc _
    constructor
    · intro _; exact ⟨acc, rfl⟩
    · intro hn
      exfalso
      apply hn
      cases prev <;> simp [prevChain]
  | cons r rest ih =>
    intro prev acc hwf
    have hwfr := hwf r (List.mem_cons_self _ _)
    cases r with
    | nil => simp [wfReq] at hwfr
    | cons t payload =>
      have htype : reqTypeByte (t :: payload) = t := rfl
      cases hviol : (match prev with | none => false | some p => decide (t ≤ p)) with
      | false =>
        obtain ⟨acc2, hacc2⟩ := loop_step prev acc t payload rest hwfr hviol
        have hsh := prevChain_shift prev t (rest.map reqTypeByte) hviol
        have ihr := ih (some t) acc2 (fun q hq => hwf q (List.mem_cons_of_mem _ hq))
        constructor
        · intro hch
          rw [hacc2]
          apply ihr.1
          apply hsh.mp
          simpa [htype] using hch
        · intro hnc
          rw [hacc2]
          apply ihr.2
          intro hch
          apply hnc
          simp only [List.map_cons, htype]
          exact hsh.mpr hch
      | true =>
        cases prev with
        | none => simp at hviol
        | some p =>
          have hp : t ≤ p := of_decide_eq_true hviol
          have hnc : ¬ prevChain (some p)
              (((t :: payload) :: rest).map reqTypeByte) := by
            simp only [List.map_cons, htype, prevChain, List.chain'_cons]
            intro hch
            exact absurd hch.1 (by omega)
          constructor
          · intro hch; exact absurd hch hnc
          · intro _; exact loop_violation p acc t payload rest hp

/-- C1: for every validator `v` and epoch `e` inside the retained window, the
min-span cell built by the span-update pass from the blank state equals the
minimum of `target − e` over the retained records of `v` with `source > e`
(`SPAN_MAX` when none), and the max-span cell equals the maximum of
`target − e` over records with `source < e` (`0` when none). -/
theorem span_correctness (eNow : Nat) (l : List Att) (v e : Nat)
    (hwin : eNow < e + H) (hcur : e ≤ eNow)
    (hret : ∀ a ∈ l, a.target ≤ eNow)
    (hkeys : l.Pairwise fun a b => a.validator ≠ b.validator ∨ a.target ≠ b.target) :
    minCellCorrect (applyBatch eNow blankState l).minS l v e ∧
    maxCellCorrect (applyBatch eNow blankState l).maxS l v e := by
  have hmin : (applyBatch eNow blankState l).minS v e
      = (minCands l v e).foldl min SPAN_MAX := by
    rw [applyBatch_minS, minUpdateList_cell, minCandsFull_eq eNow l v e hwin]
    rfl
  have hmax : (applyBatch eNow blankState l).maxS v e
      = (maxCands l v e).foldl max 0 := by
    rw [applyBatch_maxS, maxUpdateList_cell]
    rfl
  have hbound : ∀ x ∈ minCands l v e, x < H := by
    intro x hx
    simp only [minCands, List.mem_map, List.mem_filter] at hx
    obtain ⟨a, ⟨hal, _⟩, hval⟩ := hx
    have := hret a hal
    omega
  refine ⟨⟨?_, ?_, ?_⟩, ?_, ?_, ?_⟩
  · intro hnil
    rw [hmin, hnil]
    rfl
  · intro x hx
    rw [hmin]
    exact foldl_min_le_mem _ _ _ hx
  · intro hne
    rw [hmin]
    rcases foldl_min_choice (minCands l v e) SPAN_MAX with hch | hch
    · exfalso
      obtain ⟨x0, hx0⟩ := List.exists_mem_of_ne_nil _ hne
      have h1 := foldl_min_le_mem (minCands l v e) SPAN_MAX x0 hx0
      rw [hch] at h1
      have h2 := hbound x0 hx0
      have h3 : (65535 : Nat) ≤ x0 := h1
      have h4 : x0 < 4096 := h2
      omega
    · exact hch
  · intro hnil
    rw [hmax, hnil]
    rfl
  · intro x hx
    rw [hmax]
    exact foldl_max_mem_le _ _ _ hx
  · intro hne
    rw [hmax]
    rcases foldl_max_choice (maxCands l v e) 0 with hch | hch
    · obtain ⟨x0, hx0⟩ := List.exists_mem_of_ne_nil _ hne
      have h1 := foldl_max_mem_le (maxCands l v e) 0 x0 hx0
      rw [hch] at h1 ⊢
      have h2 : x0 = 0 := Nat.le_zero.mp h1
      rw [← h2]
      exact hx0
    · exact hch

/-- Witness for C1 at the `doc.go` history of validator 257, current epoch
8222, cell epoch 8197 (the doc's table gives min 8 and max 0 there). -/
theorem span_correctness_witness :
    minCellCorrect (applyBatch 8222 blankState records257).minS records257 257 8197 ∧
    maxCellCorrect (applyBatch 8222 blankState records257).maxS records257 257 8197 :=
  span_correctness 8222 records257 257 8197 (by decide) (by decide)
    (by decide) (by decide)

/-- C5: applying the span-update pass for a batch twice in succession yields
exactly the same min-span state, max-span state, and record index as applying
it once. -/
theorem span_update_idempotent (eNow : Nat) (st : SState) (l : List Att) :
    applyBatch eNow (applyBatch eNow st l) l = applyBatch eNow st l := by
  have hmin : (applyBatch eNow (applyBatch eNow st l) l).minS
      = (applyBatch eNow st l).minS := by
    rw [applyBatch_minS, applyBatch_minS, minUpdateList_idem]
  have hmax : (applyBatch eNow (applyBatch eNow st l) l).maxS
      = (applyBatch eNow st l).maxS := by
    rw [applyBatch_maxS, applyBatch_maxS, maxUpdateList_idem]
  have hrec : (applyBatch eNow (applyBatch eNow st l) l).recs
      = (applyBatch eNow st l).recs := by
    rw [applyBatch_recs, applyBatch_recs, recInsertList_idem]
  exact SState.ext hmin hmax hrec

/-- C6: for two attestations by the same validator, processing the batch
`[a1, a2]` yields the same min-span and max-span state as `[a2, a1]`, because
the cell updates commute. -/
theorem span_update_commutes (eNow : Nat) (st : SState) (a1 a2 : Att)
    (h : a1.validator = a2.validator) :
    (applyBatch eNow st [a1, a2]).minS = (applyBatch eNow st [a2, a1]).minS ∧
    (applyBatch eNow st [a1, a2]).maxS = (applyBatch eNow st [a2, a1]).maxS :=
  ⟨minUpdateAtt_comm eNow st.minS a1 a2, maxUpdateAtt_comm st.maxS a1 a2⟩

/-- Witness for C6 on two concrete attestations of validator 7. -/
theorem span_update_commutes_witness :
    (applyBatch 20 blankState [⟨7, 10, 12, 1⟩, ⟨7, 11, 13, 2⟩]).minS
      = (applyBatch 20 blankState [⟨7, 11, 13, 2⟩, ⟨7, 10, 12, 1⟩]).minS ∧
    (applyBatch 20 blankState [⟨7, 10, 12, 1⟩, ⟨7, 11, 13, 2⟩]).maxS
      = (applyBatch 20 blankState [⟨7, 11, 13, 2⟩, ⟨7, 10, 12, 1⟩]).maxS :=
  span_update_commutes 20 blankState ⟨7, 10, 12, 1⟩ ⟨7, 11, 13, 2⟩ (by decide)

/-- C2 counterexample: an incoming attestation `(v = 0, s = 0, t = 70000)` at
current epoch 70000 passes the validity gate (`e_now − t = 0 < H`, `t > s`)
and fires the surround-by-older check against a validator with no recorded
history at all (`min[0,0]` is the sentinel `SPAN_MAX = 65535 < 70000`), yet no
recorded attestation — in particular none with source greater than `s` —
exists to serve as the evidence partner. -/
theorem surround_partner_cex :
    (70000 : Nat) - 70000 < H ∧ (0 : Nat) < 70000 ∧
    surroundCheck (applyBatch 70000 blankState []).minS 0 0 70000 = true ∧
    ¬ ∃ a : Att, a ∈ ([] : List Att) ∧ 0 < a.source := by
  refine ⟨by decide, by decide, by decide, ?_⟩
  rintro ⟨a, ha, -⟩
  cases ha

/-- C2 (amended): provided additionally `t − s ≤ SPAN_MAX` (so the check
cannot fire off the bare sentinel), whenever the surround-by-older check
fires for an incoming `(v, s, t)` against the state built from the record
list `l`, some recorded attestation of `v` with source greater than `s`
realizes the min-span cell; and on the `doc.go` history of validator 257 the
incoming `8197→8199` is non-slashable (`min = 8 ≥ 2`) while `8202→8206`
fires (`min = 3 < 4`) with evidence partner `8204→8205`. -/
theorem surround_by_older_partner :
    (∀ (eNow : Nat) (l : List Att) (v s t : Nat),
        t - s ≤ SPAN_MAX →
        surroundCheck (applyBatch eNow blankState l).minS v s t = true →
        ∃ a ∈ l, a.validator = v ∧ s < a.source ∧
          a.target - s = (applyBatch eNow blankState l).minS v s) ∧
    (applyBatch 8222 blankState records257).minS 257 8197 = 8 ∧
    surroundCheck (applyBatch 8222 blankState records257).minS 257 8197 8199 = false ∧
    (applyBatch 8222 blankState records257).minS 257 8202 = 3 ∧
    surroundCheck (applyBatch 8222 blankState records257).minS 257 8202 8206 = true ∧
    findSurroundedPartner records257 257 8202 8206 = some ⟨257, 8204, 8205, 0⟩ := by
  refine ⟨?_, by decide, by decide, by decide, by decide, by decide⟩
  intro eNow l v s t hts hchk
  have hcell : (applyBatch eNow blankState l).minS v s
      = (minCandsFull eNow l v s).foldl min SPAN_MAX := by
    rw [applyBatch_minS, minUpdateList_cell]
    rfl
  have hlt : (applyBatch eNow blankState l).minS v s < t - s := by
    have := of_decide_eq_true hchk
    exact this
  have hblow : (applyBatch eNow blankState l).minS v s < SPAN_MAX :=
    lt_of_lt_of_le hlt hts
  rcases foldl_min_choice (minCandsFull eNow l v s) SPAN_MAX with hch | hch
  · rw [hcell, hch] at hblow
    exact absurd hblow (lt_irrefl _)
  · rw [hcell] at hblow ⊢
    have hmem := hch
    simp only [minCandsFull, List.mem_map, List.mem_filter] at hmem
    obtain ⟨a, ⟨hal, hcond⟩, hval⟩ := hmem
    simp only [minCond, Bool.and_eq_true, beq_iff_eq, decide_eq_true_eq] at hcond
    exact ⟨a, hal, hcond.1.1, hcond.2, hval⟩

/-- Witness for the amended C2 at the `doc.go` scenario: incoming `8202→8206`
for validator 257 fires the check and a recorded partner with source above
8202 realizing the min-span cell exists. -/
theorem surround_by_older_partner_witness :
    ∃ a ∈ records257, a.validator = 257 ∧ 8202 < a.source ∧
      a.target - 8202 = (applyBatch 8222 blankState records257).minS 257 8202 :=
  surround_by_older_partner.1 8222 records257 257 8202 8206 (by decide) (by decide)

/-- C3: whenever the surrounded-by-older check fires for an incoming
`(v, s, t)` with `t > s` against the state built from the record list `l`, a
recorded attestation of `v` strictly surrounds the incoming one
(`source < s` and `target > t`) and realizes the max-span cell; and on the
`doc.go` history of validator 257 the incoming `8197→8199` is non-slashable
(`max = 0 ≤ 2`) while `8198→8199` fires (`max = 2 > 1`) with evidence partner
`8197→8200`. -/
theorem surrounded_by_older_sound :
    (∀ (eNow : Nat) (l : List Att) (v s t : Nat),
        s < t →
        surroundedCheck (applyBatch eNow blankState l).maxS v s t = true →
        ∃ a ∈ l, a.validator = v ∧ a.source < s ∧ t < a.target ∧
          a.target - s = (applyBatch eNow blankState l).maxS v s) ∧
    (applyBatch 8222 blankState records257).maxS 257 8197 = 0 ∧
    surroundedCheck (applyBatch 8222 blankState records257).maxS 257 8197 8199 = false ∧
    (applyBatch 8222 blankState records257).maxS 257 8198 = 2 ∧
    surroundedCheck (applyBatch 8222 blankState records257).maxS 257 8198 8199 = true ∧
    findSurroundingPartner records257 257 8198 8199 = some ⟨257, 8197, 8200, 0⟩ := by
  refine ⟨?_, by decide, by decide, by decide, by decide, by decide⟩
  intro eNow l v s t hst hchk
  have hcell : (applyBatch eNow blankState l).maxS v s
      = (maxCands l v s).foldl max 0 := by
    rw [applyBatch_maxS, maxUpdateList_cell]
    rfl
  have hgt : t - s < (applyBatch eNow blankState l).maxS v s :=
    of_decide_eq_true hchk
  rcases foldl_max_choice (maxCands l v s) 0 with hch | hch
  · rw [hcell, hch] at hgt
    exact absurd hgt (Nat.not_lt_zero _)
  · have hmem : (applyBatch eNow blankState l).maxS v s ∈ maxCands l v s := by
      rw [hcell]
      exact hch
    simp only [maxCands, List.mem_map, List.mem_filter] at hmem
    obtain ⟨a, ⟨hal, hcond⟩, hval⟩ := hmem
    simp only [Bool.and_eq_true, beq_iff_eq, decide_eq_true_eq] at hcond
    refine ⟨a, hal, hcond.1, hcond.2, ?_, hval⟩
    omega

/-- Witness for C3 at the `doc.go` scenario: incoming `8198→8199` for
validator 257 fires the check and a recorded attestation strictly
surrounding it exists. -/
theorem surrounded_by_older_sound_witness :
    ∃ a ∈ records257, a.validator = 257 ∧ a.source < 8198 ∧ 8199 < a.target ∧
      a.target - 8198 = (applyBatch 8222 blankState records257).maxS 257 8198 :=
  surrounded_by_older_sound.1 8222 records257 257 8198 8199 (by decide) (by decide)

/-- C4: the chunk codec round-trips — decoding the encoding of any chunk of
`K·C` 16-bit span cells returns the original chunk. -/
theorem codec_round_trip (c : List Nat) (hlen : c.length = K * C)
    (hcell : ∀ x ∈ c, x < 65536) :
    decodeChunk (encodeChunk c) = some c := by
  have hlen2 : (encodeChunk c).length = K * C * 2 := by
    rw [encodeChunk, encodeCells_length, hlen, Nat.mul_comm]
  rw [decodeChunk, if_pos hlen2, encodeChunk, decodeCells_encodeCells]

/-- Witness for C4 on the all-sentinel chunk (a blank min-span chunk). -/
theorem codec_round_trip_witness :
    decodeChunk (encodeChunk (List.replicate (K * C) 65535))
      = some (List.replicate (K * C) 65535) :=
  codec_round_trip (List.replicate (K * C) 65535) (by simp)
    (fun x hx => by rw [List.eq_of_mem_replicate hx]; decide)

/-- C7: once the current epoch has advanced to or beyond `e + H` and the
pruner has run at every tick, a query of the chunked span store for epoch `e`
returns the identity value of the queried kind — `SPAN_MAX` for min-span and
`0` for max-span. -/
theorem circular_buffer_identity (stMin stMax : Spans) (v e eNow : Nat)
    (h : e + H ≤ eNow) :
    queryCell (pruneUpTo SPAN_MAX stMin eNow) v e = SPAN_MAX ∧
    queryCell (pruneUpTo 0 stMax eNow) v e = 0 := by
  constructor
  · exact pruneUpTo_dead SPAN_MAX stMin eNow v e h
  · exact pruneUpTo_dead 0 stMax eNow v e h

/-- Witness for C7: a store holding arbitrary junk values, queried for epoch
5 after the driver reached epoch 4101 > 5 + H. -/
theorem circular_buffer_identity_witness :
    queryCell (pruneUpTo SPAN_MAX (fun _ _ => 7) 4101) 1 5 = SPAN_MAX ∧
    queryCell (pruneUpTo 0 (fun _ _ => 9) 4101) 1 5 = 0 :=
  circular_buffer_identity (fun _ _ => 7) (fun _ _ => 9) 1 5 4101 (by decide)

/-- C8: an attestation whose target has fallen `H` or more epochs behind the
current epoch is rejected by the detector's validity gate as `OutOfWindow` —
a normal outcome of the total function, not an error — and the state
(min spans, max spans, record index) is returned unchanged. -/
theorem out_of_window_rejection (eNow tol : Nat) (st : SState) (a : Att)
    (h : a.target + H ≤ eNow) :
    detect eNow tol st a = (st, Outcome.outOfWindow) := by
  have h1 : H ≤ eNow - a.target := by omega
  unfold detect
  rw [if_pos (Or.inl h1)]

/-- Witness for C8 exactly at the window boundary `target = e_now − H`
(target 4096 at current epoch 8192). -/
theorem out_of_window_rejection_witness :
    detect 8192 1 blankState ⟨5, 4090, 4096, 7⟩
      = (blankState, Outcome.outOfWindow) :=
  out_of_window_rejection 8192 1 blankState ⟨5, 4090, 4096, 7⟩ (by decide)

/-- C9: `encode` lays a chunk out row-major by validator then epoch as a flat
little-endian sequence of 2-byte cells — cell `(v, j)` occupies bytes
`2·(v·C + j)` (low byte `cell % 256`) and `2·(v·C + j) + 1` (high byte
`cell / 256`) — and the uncompressed chunk is exactly
`K · C · 2 = 8192` bytes. -/
theorem chunk_layout_bytes (ch : List Nat) (v j : Nat)
    (hlen : ch.length = K * C) (hv : v < K) (hj : j < C) :
    (encodeChunk ch).length = 8192 ∧
    (encodeChunk ch)[2 * (v * C + j)]?
      = (ch[v * C + j]?).map (fun x => x % 256) ∧
    (encodeChunk ch)[2 * (v * C + j) + 1]?
      = (ch[v * C + j]?).map (fun x => x / 256) := by
  refine ⟨?_, (encodeCells_bytes ch (v * C + j)).1,
    (encodeCells_bytes ch (v * C + j)).2⟩
  rw [encodeChunk, encodeCells_length, hlen]
  decide

/-- Witness for C9 on a concrete full-size chunk of cells 513 (bytes 1, 2),
at validator row 3, epoch column 5. -/
theorem chunk_layout_bytes_witness :
    (encodeChunk (List.replicate (K * C) 513)).length = 8192 ∧
    (encodeChunk (List.replicate (K * C) 513))[2 * (3 * C + 5)]?
      = ((List.replicate (K * C) 513)[3 * C + 5]?).map (fun x => x % 256) ∧
    (encodeChunk (List.replicate (K * C) 513))[2 * (3 * C + 5) + 1]?
      = ((List.replicate (K * C) 513)[3 * C + 5]?).map (fun x => x / 256) :=
  chunk_layout_bytes (List.replicate (K * C) 513) 3 5 (by simp) (by decide)
    (by decide)

/-- C10: over well-formed request entries, `GetDecodedExecutionRequests`
succeeds exactly when the leading request-type bytes are strictly ascending —
absent request types are fine — and otherwise returns the error containing
"invalid execution request type order". -/
theorem decoded_requests_order (reqs : List (List Nat))
    (hwf : ∀ r ∈ reqs, wfReq r = true) :
    (List.Chain' (fun x y => x < y) (reqs.map reqTypeByte) →
      ∃ res, getDecodedExecutionRequests reqs = Except.ok res) ∧
    (¬ List.Chain' (fun x y => x < y) (reqs.map reqTypeByte) →
      getDecodedExecutionRequests reqs = Except.error
        ("invalid execution request type order" ++
          " or duplicate requests, requests should be in sorted order and unique")) := by
  have hspec := decodeRequestsLoop_spec reqs none ⟨[], [], []⟩ hwf
  constructor
  · intro hch
    exact hspec.1 hch
  · intro hnc
    exact hspec.2 hnc

set_option maxRecDepth 8192 in
/-- Witness for C10 mirroring `TestGetDecodedExecutionRequests`: a deposit
request followed by a consolidation request (types 0 < 2, withdrawals absent)
decodes successfully, while the same two requests in the reverse order yield
the type-order error. -/
theorem decoded_requests_order_witness :
    (∃ res, getDecodedExecutionRequests
        [0 :: List.replicate 192 97, 2 :: List.replicate 116 102]
      = Except.ok res) ∧
    getDecodedExecutionRequests
        [2 :: List.replicate 116 102, 0 :: List.replicate 192 97]
      = Except.error
        ("invalid execution request type order" ++
          " or duplicate requests, requests should be in sorted order and unique") := by
  constructor
  · exact (decoded_requests_order
      [0 :: List.replicate 192 97, 2 :: List.replicate 116 102]
      (by decide)).1 (by simp [reqTypeByte, List.chain'_cons])
  · exact (decoded_requests_order
      [2 :: List.replicate 116 102, 0 :: List.replicate 192 97]
      (by decide)).2 (by simp [reqTypeByte, List.chain'_cons])
